import Mathlib

/-!
# Verification of the meeting-scheduler core

Shallow embedding of the repository's two core components:

* the availability resolver of `src/gcal.py` (`find_available_slots`,
  `retrieve_calendar_events`): busy-interval collection, sorting, the
  sweep-merge, and the gap walk that emits free slots;
* the tool dispatcher of `src/agent.py` (`PydanticAgent.run_conversation`):
  catalog lookup, per-invocation argument validation and execution with a
  per-invocation exception handler, and the final no-tools model submission.

Times are modelled as integers (seconds on a single UTC timeline);
`timedelta(minutes=d)` becomes `60 * d`.  Fallible calls (the Google API,
tool handlers, argument validation) are modelled with `Except`.
-/

/-- A half-open busy or free interval `[start, end)` as a pair of instants
on the single UTC timeline, in seconds. -/
abbrev TimeInterval := Int × Int

/-! ## Availability resolver (`src/gcal.py`, `find_available_slots`) -/

/-- `all_busy_intervals.sort(key=lambda x: x[0])`: Python's stable sort by
start time only.  Modelled with insertion sort, which is stable, hence
extensionally equal to Python's (also stable) sort for this key. -/
def sortBusy (l : List TimeInterval) : List TimeInterval :=
  List.insertionSort (fun a b => a.1 ≤ b.1) l

/-- The body of the sweep loop in `find_available_slots` (gcal.py lines
121-128): the current run is `(cs, ce)`; an incoming interval joins the
run exactly when its start is strictly below `ce`, extending the run's end
to the max of the two ends; otherwise the run closes and a new run opens. -/
def mergeRun (cs ce : Int) : List TimeInterval → List TimeInterval
  | [] => [(cs, ce)]
  | (ns, ne) :: rest =>
    if ns < ce then mergeRun cs (max ce ne) rest
    else (cs, ce) :: mergeRun ns ne rest

/-- The sweep of gcal.py lines 119-128: `merged_busy` from the sorted
busy-interval union (empty input yields no runs). -/
def mergeBusy : List TimeInterval → List TimeInterval
  | [] => []
  | (s, e) :: rest => mergeRun s e rest

/-- The slot walk of gcal.py lines 130-138: cursor `last` starts at the
window start; each merged-busy obstacle `(bs, be)` emits the gap
`[last, bs)` when it is nonempty and at least `60 * d` seconds long, then
advances the cursor to `max last be`; after the last obstacle the final
gap up to the window end `we` is emitted under the same test. -/
def slotsFrom (we : Int) (d : Int) (last : Int) : List TimeInterval → List TimeInterval
  | [] => if last < we ∧ 60 * d ≤ we - last then [(last, we)] else []
  | (bs, be) :: rest =>
    (if last < bs ∧ 60 * d ≤ bs - last then [(last, bs)] else []) ++
      slotsFrom we d (max last be) rest

/-- The same walk with the duration test dropped: all (nonempty) maximal
gaps between the cursor and the obstacles / the window end.  Used to state
maximality of the emitted slots. -/
def gapsFrom (we : Int) (last : Int) : List TimeInterval → List TimeInterval
  | [] => if last < we then [(last, we)] else []
  | (bs, be) :: rest =>
    (if last < bs then [(last, bs)] else []) ++ gapsFrom we (max last be) rest

/-- The full pure pipeline of gcal.py lines 118-138: sort the busy union,
sweep-merge it, and walk the window emitting qualifying free slots. -/
def findSlotsCore (ws we : Int) (d : Int) (busy : List TimeInterval) : List TimeInterval :=
  slotsFrom we d ws (mergeBusy (sortBusy busy))

/-- `t` lies inside some interval of `l` (busy at instant `t`). -/
def busyIn (l : List TimeInterval) (t : Int) : Prop :=
  ∃ b ∈ l, b.1 ≤ t ∧ t < b.2

/-- gcal.py line 105: `start_date + "T00:00:00"` tagged UTC; a date is
modelled by its day number, so midnight is `86400 * startDay`. -/
def windowStart (startDay : Int) : Int := 86400 * startDay

/-- gcal.py line 106: `end_date + "T23:59:59"` tagged UTC, i.e. second
86399 of `endDay`. -/
def windowEnd (endDay : Int) : Int := 86400 * endDay + 86399

/-! ## The calendar operations' results (`src/models.py`, `src/gcal.py`) -/

/-- The two exception classes caught in gcal.py: `HttpError` and a general
`Exception`, each carrying the formatted message text. -/
inductive ApiError where
  | httpError (msg : String)
  | unexpectedError (msg : String)
deriving DecidableEq

/-- The f-strings of gcal.py lines 97/99 and 142/144. -/
def apiErrorText : ApiError → String
  | .httpError m => "An API error occurred: " ++ m
  | .unexpectedError m => "An unexpected error occurred: " ++ m

/-- One calendar's entry in the free/busy query result: an `errors` list
(truthy when retrieval failed) and the `busy` interval list. -/
structure CalendarData where
  errors : List String
  busy : List TimeInterval
deriving DecidableEq

/-- `FindAvailableSlotsOutput` of models.py: slots (default `[]`),
optional status, optional error. -/
structure FindAvailableSlotsOutput where
  slots : List TimeInterval
  status : Option String
  error : Option String
deriving DecidableEq

/-- gcal.py lines 110-116: collect the busy union over the calendars in
the free/busy result, skipping (`continue`) any calendar whose `errors`
entry is truthy. -/
def collectBusy : List (String × CalendarData) → List TimeInterval
  | [] => []
  | (_, data) :: rest =>
    if data.errors ≠ [] then collectBusy rest
    else data.busy ++ collectBusy rest

/-- `find_available_slots` of gcal.py lines 101-144.  The free/busy API
call is modelled by its result: `.error` when the call raised (caught by
the two `except` arms, lines 141-144), `.ok` with the per-calendar data
otherwise.  Dates are day numbers; duration is in minutes. -/
def find_available_slots (startDay endDay : Int) (durationMinutes : Int)
    (freebusyResult : Except ApiError (List (String × CalendarData))) :
    FindAvailableSlotsOutput :=
  match freebusyResult with
  | .error e => ⟨[], none, some (apiErrorText e)⟩
  | .ok calendars =>
    let available := findSlotsCore (windowStart startDay) (windowEnd endDay)
      durationMinutes (collectBusy calendars)
    if available ≠ [] then ⟨available, none, none⟩
    else ⟨[], some "No common slots found.", none⟩

/-- One event's raw `start`/`end` dictionary: an optional `dateTime` and an
optional all-day `date`. -/
structure RawEventTime where
  dateTime : Option String
  date : Option String
deriving DecidableEq

/-- A raw event from the events API (`summary`, `start`, `end`; the latter
renamed `finish`, `end` being a Lean keyword). -/
structure RawEvent where
  summary : String
  start : RawEventTime
  finish : RawEventTime
deriving DecidableEq

/-- `CalendarEvent` of models.py (`end` renamed `finish`). -/
structure CalendarEvent where
  title : String
  start : Option String
  finish : Option String
deriving DecidableEq

/-- `RetrieveCalendarEventsOutput` of models.py. -/
structure RetrieveCalendarEventsOutput where
  events : List CalendarEvent
  status : Option String
  error : Option String
deriving DecidableEq

/-- gcal.py lines 91-92: `event["start"].get("dateTime", event["start"].get("date"))`. -/
def eventTimeValue (t : RawEventTime) : Option String :=
  match t.dateTime with
  | some s => some s
  | none => t.date

/-- `retrieve_calendar_events` of gcal.py lines 77-99, with the events API
call modelled by its result. -/
def retrieve_calendar_events (apiResult : Except ApiError (List RawEvent)) :
    RetrieveCalendarEventsOutput :=
  match apiResult with
  | .error e => ⟨[], none, some (apiErrorText e)⟩
  | .ok events =>
    if events = [] then ⟨[], some "No upcoming events found.", none⟩
    else
      ⟨events.map (fun ev => ⟨ev.summary, eventTimeValue ev.start, eventTimeValue ev.finish⟩),
        none, none⟩

/-! ## Tool dispatcher (`src/agent.py`, `PydanticAgent.run_conversation`) -/

/-- A model-issued invocation request (`tool_call`): identifier, operation
name, raw JSON argument payload. -/
structure ToolCall where
  id : String
  name : String
  arguments : String
deriving DecidableEq

/-- The dictionary appended for each processed invocation
(agent.py lines 44 and 47). -/
structure ToolMessage where
  tool_call_id : String
  role : String
  name : String
  content : String
deriving DecidableEq

/-- A model response: content plus its invocation requests (`tool_calls`;
`None` is modelled by the empty list, matching Python truthiness). -/
structure ModelMessage where
  content : String
  tool_calls : List ToolCall
deriving DecidableEq

/-- A registered tool, as observable from the dispatcher loop: raw JSON
arguments in, serialized result out; `.error` models any exception raised
during validation (`model_validate_json`) or execution. -/
abbrev ToolHandler := String → Except String String

/-- The `self.tools` catalog: name to handler, `none` for unregistered names. -/
abbrev Catalog := String → Option ToolHandler

/-- The error payload of agent.py line 47:
`f'{"error": "Failed to execute tool: {e}"}'`. -/
def errorContent (e : String) : String :=
  "\x7b\x22error\x22: \x22Failed to execute tool: " ++ e ++ "\x22\x7d"

/-- Lines 31-47 for a single invocation with its handler already resolved:
the try/except around validation and execution, producing the tool-result
message tagged with the invocation's identifier. -/
def toolResult (tool : ToolHandler) (tc : ToolCall) : ToolMessage :=
  match tool tc.arguments with
  | .ok content => ⟨tc.id, "tool", tc.name, content⟩
  | .error e => ⟨tc.id, "tool", tc.name, errorContent e⟩

/-- The dispatch loop of agent.py lines 28-47.  The catalog lookup
`self.tools[function_name]` (line 30) sits OUTSIDE the try block, so an
unregistered name raises `KeyError` out of the whole loop; everything after
the lookup is inside the try and becomes an error tool-result instead. -/
def processCalls (tools : Catalog) : List ToolCall → Except String (List ToolMessage)
  | [] => .ok []
  | tc :: rest =>
    match tools tc.name with
    | none => .error ("KeyError: " ++ tc.name)
    | some tool =>
      match processCalls tools rest with
      | .ok msgs => .ok (toolResult tool tc :: msgs)
      | .error e => .error e

/-- `run_conversation` of agent.py lines 20-51.  The two model submissions
are modelled by the first response and a function giving the second
response from the appended tool messages.  The result carries the final
message, the tool messages appended to the conversation, and the number of
model submissions made; `.error` models an uncaught exception escaping
`run_conversation`. -/
def run_conversation (tools : Catalog) (firstResponse : ModelMessage)
    (secondModel : List ToolMessage → ModelMessage) :
    Except String (ModelMessage × List ToolMessage × Nat) :=
  if firstResponse.tool_calls = [] then .ok (firstResponse, [], 1)
  else
    match processCalls tools firstResponse.tool_calls with
    | .error e => .error e
    | .ok msgs => .ok (secondModel msgs, msgs, 2)

/-- The catalog shape of agent.py lines 11-15, at the granularity the
dispatcher observes: `parse_email` is registered (a handler that fails on
payloads it cannot validate), other names are not. -/
def demoCatalog : Catalog := fun tname =>
  if tname = "parse_email" then
    some (fun args => if args = "\x7b\x7d" then .ok "parsed" else .error "validation error")
  else none

/-! ## Dispatcher theorems -/

/-- Helper: when every invocation in the round names a registered
operation, the dispatch loop succeeds and produces one tool-result message
per invocation, in issuance order, each tagged with its invocation's
identifier and determined by `toolResult`. -/
theorem processCalls_ok (tools : Catalog) (calls : List ToolCall)
    (hreg : ∀ tc ∈ calls, (tools tc.name).isSome) :
    ∃ msgs, processCalls tools calls = .ok msgs ∧
      List.Forall₂ (fun (tc : ToolCall) (m : ToolMessage) =>
        m.tool_call_id = tc.id ∧ m.role = "tool" ∧ m.name = tc.name ∧
        ∀ tool, tools tc.name = some tool → m = toolResult tool tc) calls msgs := by
  induction calls with
  | nil => exact ⟨[], rfl, .nil⟩
  | cons tc rest ih =>
    obtain ⟨msgs, hm, hf⟩ := ih (fun x hx => hreg x (List.mem_cons_of_mem _ hx))
    obtain ⟨tool, htool⟩ := Option.isSome_iff_exists.mp (hreg tc (List.mem_cons_self _ _))
    refine ⟨toolResult tool tc :: msgs, ?_, ?_⟩
    · simp [processCalls, htool, hm]
    · refine .cons ⟨?_, ?_, ?_, ?_⟩ hf
      · cases h : tool tc.arguments <;> simp [toolResult, h]
      · cases h : tool tc.arguments <;> simp [toolResult, h]
      · cases h : tool tc.arguments <;> simp [toolResult, h]
      · intro tool' htool'
        rw [htool] at htool'
        cases htool'
        rfl

/-- C5: if the model's first response contains zero invocation requests,
`run_conversation` returns that response unchanged, appends nothing to the
conversation, and makes no second model submission. -/
theorem C5_no_tool_calls_returns_first_response (tools : Catalog)
    (firstResponse : ModelMessage) (secondModel : List ToolMessage → ModelMessage)
    (h : firstResponse.tool_calls = []) :
    run_conversation tools firstResponse secondModel = .ok (firstResponse, [], 1) := by
  simp [run_conversation, h]

/-- Witness for C5 at a concrete conversation. -/
theorem C5_no_tool_calls_returns_first_response_witness :
    (ModelMessage.mk "hello" []).tool_calls = [] ∧
    run_conversation demoCatalog (ModelMessage.mk "hello" []) (fun _ => ⟨"x", []⟩) =
      .ok (ModelMessage.mk "hello" [], [], 1) :=
  ⟨rfl, C5_no_tool_calls_returns_first_response demoCatalog _ _ rfl⟩

/-- C2 (code bug): the catalog lookup `self.tools[function_name]` sits
outside the try block (agent.py line 30), so an invocation naming an
unregistered operation raises an uncaught `KeyError` that aborts the whole
round: no error tool-result is produced for it, the registered sibling
invocation `call_2` is never processed, and the final no-tools submission
never happens, contrary to the spec. -/
theorem C2_unknown_operation_aborts_round :
    run_conversation demoCatalog
      ⟨"", [⟨"call_1", "unknown_op", "\x7b\x7d"⟩, ⟨"call_2", "parse_email", "\x7b\x7d"⟩]⟩
      (fun _ => ⟨"final", []⟩) = .error "KeyError: unknown_op" := by
  rfl

/-- C4: in a round whose invocations all name registered operations, every
invocation whose validation or handler fails yields an error tool-result
tagged with that invocation's identifier, the remaining invocations are
still processed (one message per invocation, in order), and the updated
conversation is submitted to the model for the final response. -/
theorem C4_invocation_failures_do_not_abort (tools : Catalog)
    (firstResponse : ModelMessage) (secondModel : List ToolMessage → ModelMessage)
    (hne : firstResponse.tool_calls ≠ [])
    (hreg : ∀ tc ∈ firstResponse.tool_calls, (tools tc.name).isSome) :
    ∃ msgs,
      processCalls tools firstResponse.tool_calls = .ok msgs ∧
      run_conversation tools firstResponse secondModel = .ok (secondModel msgs, msgs, 2) ∧
      List.Forall₂ (fun (tc : ToolCall) (m : ToolMessage) =>
        m.tool_call_id = tc.id ∧ m.role = "tool" ∧ m.name = tc.name ∧
        ∀ tool, tools tc.name = some tool →
          ∀ e, tool tc.arguments = .error e → m.content = errorContent e)
        firstResponse.tool_calls msgs := by
  obtain ⟨msgs, hm, hf⟩ := processCalls_ok tools firstResponse.tool_calls hreg
  refine ⟨msgs, hm, ?_, ?_⟩
  · simp [run_conversation, hne, hm]
  · refine hf.imp ?_
    rintro tc m ⟨h1, h2, h3, h4⟩
    refine ⟨h1, h2, h3, ?_⟩
    intro tool htool e he
    rw [h4 tool htool]
    simp [toolResult, he]

/-- Witness for C4: a round with one malformed-JSON invocation and one
valid invocation, both naming the registered `parse_email` operation. -/
theorem C4_invocation_failures_do_not_abort_witness :
    (ModelMessage.mk "" [⟨"id1", "parse_email", "not json"⟩,
        ⟨"id2", "parse_email", "\x7b\x7d"⟩]).tool_calls ≠ [] ∧
    (∀ tc ∈ (ModelMessage.mk "" [⟨"id1", "parse_email", "not json"⟩,
        ⟨"id2", "parse_email", "\x7b\x7d"⟩]).tool_calls, (demoCatalog tc.name).isSome) ∧
    ∃ msgs,
      processCalls demoCatalog (ModelMessage.mk "" [⟨"id1", "parse_email", "not json"⟩,
            ⟨"id2", "parse_email", "\x7b\x7d"⟩]).tool_calls = .ok msgs ∧
      run_conversation demoCatalog (ModelMessage.mk "" [⟨"id1", "parse_email", "not json"⟩,
            ⟨"id2", "parse_email", "\x7b\x7d"⟩]) (fun _ => ⟨"final", []⟩) =
        .ok (⟨"final", []⟩, msgs, 2) ∧
      List.Forall₂ (fun (tc : ToolCall) (m : ToolMessage) =>
        m.tool_call_id = tc.id ∧ m.role = "tool" ∧ m.name = tc.name ∧
        ∀ tool, demoCatalog tc.name = some tool →
          ∀ e, tool tc.arguments = .error e → m.content = errorContent e)
        (ModelMessage.mk "" [⟨"id1", "parse_email", "not json"⟩,
            ⟨"id2", "parse_email", "\x7b\x7d"⟩]).tool_calls msgs :=
  ⟨by decide, by decide,
   C4_invocation_failures_do_not_abort demoCatalog _ _ (by decide) (by decide)⟩

/-! ## Calendar operation soft-fail theorems -/

/-- C9: a calendar API failure inside `retrieve_calendar_events` or
`find_available_slots` is returned as a result whose `error` field carries
the formatted message, with no events and no slots, rather than an
exception propagating to the dispatcher. -/
theorem C9_api_failure_soft_fails (e : ApiError) (startDay endDay d : Int) :
    find_available_slots startDay endDay d (.error e) =
      ⟨[], none, some (apiErrorText e)⟩ ∧
    retrieve_calendar_events (.error e) = ⟨[], none, some (apiErrorText e)⟩ :=
  ⟨rfl, rfl⟩

/-- C6 (amended): a participant whose calendar carries retrieval errors is
silently dropped from the busy union — the output is identical to that
participant being absent, and the returned result's `error` field stays
`none` (the condition is only printed, never surfaced to the caller). -/
theorem C6_errored_calendar_silently_dropped (startDay endDay d : Int)
    (cid : String) (data : CalendarData) (rest : List (String × CalendarData))
    (herr : data.errors ≠ []) :
    find_available_slots startDay endDay d (.ok ((cid, data) :: rest)) =
      find_available_slots startDay endDay d (.ok rest) ∧
    (find_available_slots startDay endDay d (.ok ((cid, data) :: rest))).error = none := by
  have hc : collectBusy ((cid, data) :: rest) = collectBusy rest := by
    simp [collectBusy, herr]
  constructor
  · simp only [find_available_slots, hc]
  · simp only [find_available_slots, hc]
    split <;> rfl

/-- Witness for C6 (amended) at a concrete errored calendar. -/
theorem C6_errored_calendar_silently_dropped_witness :
    (CalendarData.mk ["HttpError"] [((0:Int), 86399)]).errors ≠ [] ∧
    (find_available_slots 0 0 30
        (.ok [("alice", ⟨["HttpError"], [((0:Int), 86399)]⟩)]) =
      find_available_slots 0 0 30 (.ok []) ∧
    (find_available_slots 0 0 30
        (.ok [("alice", ⟨["HttpError"], [((0:Int), 86399)]⟩)])).error = none) :=
  ⟨by decide, C6_errored_calendar_silently_dropped 0 0 30 "alice" _ [] (by decide)⟩

/-- Counterexample to C6 as stated: a participant who is busy for the whole
window but whose calendar has retrieval errors is treated as fully free —
the entire window is returned as a single free slot and the result carries
no error, so nothing is surfaced to the caller. -/
theorem C6_counterexample :
    find_available_slots 0 0 30
        (.ok [("alice", ⟨["HttpError"], [((0:Int), 86399)]⟩)]) =
      ⟨[((0:Int), 86399)], none, none⟩ := by
  rfl

/-! ## Resolver lemmas: the sweep-merge -/

/-- Membership unfolding for `busyIn`. -/
theorem busyIn_cons {b : TimeInterval} {l : List TimeInterval} {t : Int} :
    busyIn (b :: l) t ↔ (b.1 ≤ t ∧ t < b.2) ∨ busyIn l t := by
  simp [busyIn]

/-- Invariants of the sweep loop body: starting from run `(cs, ce)` over a
start-sorted tail whose starts all lie at or after `cs`, the emitted runs
are pairwise disjoint in order, proper, start at or after `cs`, and cover
exactly the run plus the tail. -/
theorem mergeRun_spec (rest : List TimeInterval) : ∀ cs ce : Int,
    List.Pairwise (fun a b : TimeInterval => a.1 ≤ b.1) rest →
    (∀ b ∈ rest, cs ≤ b.1) →
    cs < ce →
    (∀ b ∈ rest, b.1 < b.2) →
    List.Pairwise (fun a b : TimeInterval => a.2 ≤ b.1) (mergeRun cs ce rest) ∧
      (∀ o ∈ mergeRun cs ce rest, cs ≤ o.1 ∧ o.1 < o.2) ∧
      (∀ t : Int, (∃ o ∈ mergeRun cs ce rest, o.1 ≤ t ∧ t < o.2) ↔
        ((cs ≤ t ∧ t < ce) ∨ busyIn rest t)) := by
  induction rest with
  | nil =>
    intro cs ce _ _ hce _
    refine ⟨by simp [mergeRun], ?_, ?_⟩
    · intro o ho
      simp [mergeRun] at ho
      subst ho
      exact ⟨le_refl _, hce⟩
    · intro t
      simp [mergeRun, busyIn]
  | cons b rest' ih =>
    obtain ⟨ns, ne⟩ := b
    intro cs ce hpw hcs hce hproper
    obtain ⟨hns, hpw'⟩ := List.pairwise_cons.mp hpw
    have hcs' : ∀ x ∈ rest', cs ≤ x.1 := fun x hx => hcs x (List.mem_cons_of_mem _ hx)
    have hcsns : cs ≤ ns := hcs (ns, ne) (List.mem_cons_self _ _)
    have hproper' : ∀ x ∈ rest', x.1 < x.2 :=
      fun x hx => hproper x (List.mem_cons_of_mem _ hx)
    have hnsne : ns < ne := hproper (ns, ne) (List.mem_cons_self _ _)
    by_cases h : ns < ce
    · rw [show mergeRun cs ce ((ns, ne) :: rest') = mergeRun cs (max ce ne) rest' by
        simp [mergeRun, h]]
      obtain ⟨ih1, ih2, ih3⟩ :=
        ih cs (max ce ne) hpw' hcs' (lt_of_lt_of_le hce (le_max_left _ _)) hproper'
      refine ⟨ih1, ih2, ?_⟩
      intro t
      have key : (cs ≤ t ∧ t < max ce ne) ↔ (cs ≤ t ∧ t < ce) ∨ (ns ≤ t ∧ t < ne) := by
        rw [lt_max_iff]
        omega
      rw [ih3, busyIn_cons, key, or_assoc]
    · rw [show mergeRun cs ce ((ns, ne) :: rest') = (cs, ce) :: mergeRun ns ne rest' by
        simp [mergeRun, h]]
      obtain ⟨ih1, ih2, ih3⟩ := ih ns ne hpw' hns hnsne hproper'
      refine ⟨?_, ?_, ?_⟩
      · exact List.pairwise_cons.mpr
          ⟨fun o ho => le_trans (not_lt.mp h) (ih2 o ho).1, ih1⟩
      · intro o ho
        rcases List.mem_cons.mp ho with h' | h'
        · subst h'
          exact ⟨le_refl _, hce⟩
        · exact ⟨le_trans hcsns (ih2 o h').1, (ih2 o h').2⟩
      · intro t
        rw [List.exists_mem_cons_iff, ih3, busyIn_cons]

/-- The sweep over a start-sorted list of proper intervals yields pairwise
disjoint, ordered, proper runs covering exactly the input's busy time. -/
theorem mergeBusy_spec (l : List TimeInterval)
    (hsorted : List.Pairwise (fun a b : TimeInterval => a.1 ≤ b.1) l)
    (hproper : ∀ b ∈ l, b.1 < b.2) :
    List.Pairwise (fun a b : TimeInterval => a.2 ≤ b.1) (mergeBusy l) ∧
      (∀ o ∈ mergeBusy l, o.1 < o.2) ∧
      (∀ t : Int, busyIn (mergeBusy l) t ↔ busyIn l t) := by
  match l with
  | [] =>
    refine ⟨List.Pairwise.nil, by simp [mergeBusy], ?_⟩
    intro t
    simp [mergeBusy]
  | (s, e) :: rest =>
    obtain ⟨hhead, hpw'⟩ := List.pairwise_cons.mp hsorted
    obtain ⟨h1, h2, h3⟩ := mergeRun_spec rest s e hpw' hhead
      (hproper (s, e) (List.mem_cons_self _ _))
      (fun b hb => hproper b (List.mem_cons_of_mem _ hb))
    refine ⟨h1, fun o ho => (h2 o ho).2, ?_⟩
    intro t
    rw [show mergeBusy ((s, e) :: rest) = mergeRun s e rest from rfl, busyIn]
    rw [h3, busyIn_cons]

/-- Facts about the merged-busy set produced by the full sort-and-sweep
from a raw busy union whose intervals are proper and lie in the window:
the runs are pairwise disjoint in order, proper, inside the window, and
cover exactly the raw busy time. -/
theorem merged_facts (l : List TimeInterval) (ws we : Int)
    (hl : ∀ b ∈ l, ws ≤ b.1 ∧ b.1 < b.2 ∧ b.2 ≤ we) :
    List.Pairwise (fun a b : TimeInterval => a.2 ≤ b.1) (mergeBusy (sortBusy l)) ∧
      (∀ o ∈ mergeBusy (sortBusy l), ws ≤ o.1 ∧ o.1 < o.2 ∧ o.2 ≤ we) ∧
      (∀ t : Int, busyIn (mergeBusy (sortBusy l)) t ↔ busyIn l t) := by
  have hperm : List.Perm (sortBusy l) l := List.perm_insertionSort _ l
  have hl' : ∀ b ∈ sortBusy l, ws ≤ b.1 ∧ b.1 < b.2 ∧ b.2 ≤ we :=
    fun b hb => hl b (hperm.subset hb)
  have hsorted : List.Pairwise (fun a b : TimeInterval => a.1 ≤ b.1) (sortBusy l) := by
    haveI : IsTotal TimeInterval (fun a b => a.1 ≤ b.1) := ⟨fun a b => le_total a.1 b.1⟩
    haveI : IsTrans TimeInterval (fun a b => a.1 ≤ b.1) := ⟨fun a b c => le_trans⟩
    exact List.sorted_insertionSort _ l
  obtain ⟨h1, h2, h3⟩ := mergeBusy_spec (sortBusy l) hsorted (fun b hb => (hl' b hb).2.1)
  have hcov : ∀ t : Int, busyIn (mergeBusy (sortBusy l)) t ↔ busyIn l t := by
    intro t
    rw [h3]
    exact ⟨fun ⟨b, hb, hbt⟩ => ⟨b, hperm.subset hb, hbt⟩,
      fun ⟨b, hb, hbt⟩ => ⟨b, hperm.symm.subset hb, hbt⟩⟩
  refine ⟨h1, ?_, hcov⟩
  intro o ho
  have hop : o.1 < o.2 := h2 o ho
  obtain ⟨b, hb, hb1, hb2⟩ := (hcov o.1).mp ⟨o, ho, le_refl _, hop⟩
  obtain ⟨b', hb', hb'1, hb'2⟩ := (hcov (o.2 - 1)).mp ⟨o, ho, by omega, by omega⟩
  have hwb := hl b hb
  have hwb' := hl b' hb'
  exact ⟨by omega, hop, by omega⟩

/-! ## Resolver lemmas: the gap walk -/

/-- Every gap emitted by the walk is nonempty and starts at or after the
current cursor. -/
theorem gapsFrom_lower (we : Int) :
    ∀ (m : List TimeInterval) (last : Int),
    ∀ g ∈ gapsFrom we last m, last ≤ g.1 ∧ g.1 < g.2 := by
  intro m
  induction m with
  | nil =>
    intro last g hg
    rw [gapsFrom] at hg
    by_cases h : last < we
    · rw [if_pos h] at hg
      rcases List.mem_singleton.mp hg with rfl
      exact ⟨le_refl _, h⟩
    · rw [if_neg h] at hg
      cases hg
  | cons b rest ih =>
    obtain ⟨bs, be⟩ := b
    intro last g hg
    rw [gapsFrom] at hg
    rcases List.mem_append.mp hg with hL | hR
    · by_cases h : last < bs
      · rw [if_pos h] at hL
        rcases List.mem_singleton.mp hL with rfl
        exact ⟨le_refl _, h⟩
      · rw [if_neg h] at hL
        cases hL
    · have := ih (max last be) g hR
      exact ⟨le_trans (le_max_left _ _) this.1, this.2⟩

/-- Every gap emitted by the walk ends at or before the window end,
provided every obstacle starts at or before the window end. -/
theorem gapsFrom_upper (we : Int) :
    ∀ (m : List TimeInterval) (last : Int), (∀ b ∈ m, b.1 ≤ we) →
    ∀ g ∈ gapsFrom we last m, g.2 ≤ we := by
  intro m
  induction m with
  | nil =>
    intro last _ g hg
    rw [gapsFrom] at hg
    by_cases h : last < we
    · rw [if_pos h] at hg
      rcases List.mem_singleton.mp hg with rfl
      exact le_refl _
    · rw [if_neg h] at hg
      cases hg
  | cons b rest ih =>
    obtain ⟨bs, be⟩ := b
    intro last hb g hg
    rw [gapsFrom] at hg
    rcases List.mem_append.mp hg with hL | hR
    · by_cases h : last < bs
      · rw [if_pos h] at hL
        rcases List.mem_singleton.mp hL with rfl
        exact hb (bs, be) (List.mem_cons_self _ _)
      · rw [if_neg h] at hL
        cases hL
    · exact ih (max last be) (fun x hx => hb x (List.mem_cons_of_mem _ hx)) g hR

/-- The emitted gaps are strictly separated: each ends strictly before the
next begins (there is busy time between consecutive gaps). -/
theorem gapsFrom_pairwise (we : Int) :
    ∀ (m : List TimeInterval) (last : Int), (∀ b ∈ m, b.1 < b.2) →
    List.Pairwise (fun a b : TimeInterval => a.2 < b.1) (gapsFrom we last m) := by
  intro m
  induction m with
  | nil =>
    intro last _
    rw [gapsFrom]
    by_cases h : last < we
    · rw [if_pos h]
      exact List.pairwise_singleton _ _
    · rw [if_neg h]
      exact List.Pairwise.nil
  | cons b rest ih =>
    obtain ⟨bs, be⟩ := b
    intro last hproper
    have hbsbe : bs < be := hproper (bs, be) (List.mem_cons_self _ _)
    have hproper' : ∀ x ∈ rest, x.1 < x.2 :=
      fun x hx => hproper x (List.mem_cons_of_mem _ hx)
    rw [gapsFrom]
    by_cases h : last < bs
    · rw [if_pos h, List.singleton_append, List.pairwise_cons]
      refine ⟨?_, ih (max last be) hproper'⟩
      intro g hg
      have := (gapsFrom_lower we rest (max last be) g hg).1
      have hbe := le_max_right last be
      omega
    · rw [if_neg h, List.nil_append]
      exact ih (max last be) hproper'

/-- Every emitted slot is nonempty, starts at or after the cursor, and ends
at or before the window end (given obstacles start at or before it). -/
theorem slotsFrom_bounds (we : Int) (d : Int) :
    ∀ (m : List TimeInterval) (last : Int), (∀ b ∈ m, b.1 ≤ we) →
    ∀ s ∈ slotsFrom we d last m, last ≤ s.1 ∧ s.1 < s.2 ∧ s.2 ≤ we := by
  intro m
  induction m with
  | nil =>
    intro last _ s hs
    rw [slotsFrom] at hs
    by_cases h : last < we ∧ 60 * d ≤ we - last
    · rw [if_pos h] at hs
      rcases List.mem_singleton.mp hs with rfl
      exact ⟨le_refl _, h.1, le_refl _⟩
    · rw [if_neg h] at hs
      cases hs
  | cons b rest ih =>
    obtain ⟨bs, be⟩ := b
    intro last hb s hs
    rw [slotsFrom] at hs
    rcases List.mem_append.mp hs with hL | hR
    · by_cases h : last < bs ∧ 60 * d ≤ bs - last
      · rw [if_pos h] at hL
        rcases List.mem_singleton.mp hL with rfl
        exact ⟨le_refl _, h.1, hb (bs, be) (List.mem_cons_self _ _)⟩
      · rw [if_neg h] at hL
        cases hL
    · have := ih (max last be) (fun x hx => hb x (List.mem_cons_of_mem _ hx)) s hR
      exact ⟨le_trans (le_max_left _ _) this.1, this.2⟩

/-- With a positive minimum duration, the emitted slots are exactly the
maximal gaps of qualifying length: the duration test is a filter over the
gap walk. -/
theorem slotsFrom_eq_filter (we : Int) (d : Int) (hd : 0 < d) :
    ∀ (m : List TimeInterval) (last : Int),
    slotsFrom we d last m = (gapsFrom we last m).filter (fun g => 60 * d ≤ g.2 - g.1) := by
  intro m
  induction m with
  | nil =>
    intro last
    by_cases h1 : last < we
    · by_cases h2 : 60 * d ≤ we - last
      · rw [slotsFrom, gapsFrom, if_pos ⟨h1, h2⟩, if_pos h1]
        simp [List.filter, h2]
      · rw [slotsFrom, gapsFrom, if_neg (by tauto), if_pos h1]
        simp [List.filter, h2]
    · have h2 : ¬ (60 * d ≤ we - last) := by omega
      rw [slotsFrom, gapsFrom, if_neg (by tauto), if_neg h1]
      simp
  | cons b rest ih =>
    obtain ⟨bs, be⟩ := b
    intro last
    rw [slotsFrom, gapsFrom, List.filter_append, ih]
    congr 1
    by_cases h1 : last < bs
    · by_cases h2 : 60 * d ≤ bs - last
      · rw [if_pos ⟨h1, h2⟩, if_pos h1]
        simp [List.filter, h2]
      · rw [if_neg (by tauto), if_pos h1]
        simp [List.filter, h2]
    · have h2 : ¬ (60 * d ≤ bs - last) := by omega
      rw [if_neg (by tauto), if_neg h1]
      simp

/-- Coverage of the gap walk: over a pairwise-disjoint, ordered list of
proper obstacles all starting at or after the cursor, an instant of the
remaining window is free of every obstacle exactly when it lies in one of
the emitted gaps. -/
theorem gapsFrom_cover (we : Int) :
    ∀ (m : List TimeInterval) (last : Int),
    (∀ b ∈ m, b.1 < b.2) →
    List.Pairwise (fun a b : TimeInterval => a.2 ≤ b.1) m →
    (∀ b ∈ m, last ≤ b.1) →
    ∀ t : Int, last ≤ t → t < we →
      (¬ busyIn m t ↔ ∃ g ∈ gapsFrom we last m, g.1 ≤ t ∧ t < g.2) := by
  intro m
  induction m with
  | nil =>
    intro last _ _ _ t h1 h2
    have h3 : last < we := lt_of_le_of_lt h1 h2
    rw [gapsFrom, if_pos h3]
    simp [busyIn]
    exact ⟨h1, h2⟩
  | cons b rest ih =>
    obtain ⟨bs, be⟩ := b
    intro last hproper hpw hlast t h1 h2
    have hbsbe : bs < be := hproper (bs, be) (List.mem_cons_self _ _)
    obtain ⟨hhead, hpw'⟩ := List.pairwise_cons.mp hpw
    have hproper' : ∀ x ∈ rest, x.1 < x.2 :=
      fun x hx => hproper x (List.mem_cons_of_mem _ hx)
    have hlast' : ∀ x ∈ rest, max last be ≤ x.1 := fun x hx =>
      max_le (hlast x (List.mem_cons_of_mem _ hx)) (hhead x hx)
    have hlastbs : last ≤ bs := hlast (bs, be) (List.mem_cons_self _ _)
    by_cases hA : t < bs
    · -- before the first obstacle: free, and inside the emitted first gap
      have hlb : last < bs := lt_of_le_of_lt h1 hA
      constructor
      · intro _
        refine ⟨(last, bs), ?_, h1, hA⟩
        rw [gapsFrom, if_pos hlb]
        exact List.mem_append_left _ (List.mem_singleton_self _)
      · intro _ hb
        rcases busyIn_cons.mp hb with ⟨hb1, hb2⟩ | ⟨x, hx, hx1, hx2⟩
        · omega
        · have := hhead x hx
          omega
    · by_cases hB : t < be
      · -- inside the first obstacle: busy, and in no gap
        have hbusy : busyIn ((bs, be) :: rest) t :=
          ⟨(bs, be), List.mem_cons_self _ _, by omega, hB⟩
        constructor
        · intro hn
          exact absurd hbusy hn
        · rintro ⟨g, hg, hg1, hg2⟩
          exfalso
          rw [gapsFrom] at hg
          rcases List.mem_append.mp hg with hL | hR
          · by_cases hlb : last < bs
            · rw [if_pos hlb] at hL
              rcases List.mem_singleton.mp hL with rfl
              exact hA (by omega)
            · rw [if_neg hlb] at hL
              cases hL
          · have := (gapsFrom_lower we rest (max last be) g hR).1
            have hbe := le_max_right last be
            omega
      · -- at or after the first obstacle's end: defer to the tail walk
        have hmax : max last be ≤ t := max_le h1 (by omega)
        have ihh := ih (max last be) hproper' hpw' hlast' t hmax h2
        constructor
        · intro hn
          obtain ⟨g, hg, hgs⟩ := ihh.mp (fun hb => hn (busyIn_cons.mpr (Or.inr hb)))
          refine ⟨g, ?_, hgs⟩
          rw [gapsFrom]
          exact List.mem_append_right _ hg
        · rintro ⟨g, hg, hg1, hg2⟩ hb
          rcases busyIn_cons.mp hb with ⟨hb1, hb2⟩ | hb'
          · omega
          · rw [gapsFrom] at hg
            rcases List.mem_append.mp hg with hL | hR
            · by_cases hlb : last < bs
              · rw [if_pos hlb] at hL
                rcases List.mem_singleton.mp hL with rfl
                omega
              · rw [if_neg hlb] at hL
                cases hL
            · exact absurd hb' (ihh.mpr ⟨g, hR, hg1, hg2⟩)

/-! ## Resolver claim theorems -/

/-- C3 (amended): over the sorted union, the sweep merges strictly
overlapping intervals — an interval joins the current run exactly when its
start is strictly less than the run's end, the run's end becoming the max
of the two ends; otherwise (including the adjacent case, start equal to
the run's end) the run closes and a new run opens.  The result is a
disjoint, ordered set of proper runs covering exactly the input's busy
time; adjacent intervals are not coalesced, so it need not be minimal. -/
theorem C3_sweep_merges_strict_overlaps (l : List TimeInterval)
    (hsorted : List.Pairwise (fun a b : TimeInterval => a.1 ≤ b.1) l)
    (hproper : ∀ b ∈ l, b.1 < b.2) :
    List.Pairwise (fun a b : TimeInterval => a.2 ≤ b.1) (mergeBusy l) ∧
    (∀ o ∈ mergeBusy l, o.1 < o.2) ∧
    (∀ t : Int, busyIn (mergeBusy l) t ↔ busyIn l t) ∧
    (∀ cs ce ns ne : Int, ∀ rest : List TimeInterval, ns < ce →
      mergeRun cs ce ((ns, ne) :: rest) = mergeRun cs (max ce ne) rest) ∧
    (∀ cs ce ns ne : Int, ∀ rest : List TimeInterval, ce ≤ ns →
      mergeRun cs ce ((ns, ne) :: rest) = (cs, ce) :: mergeRun ns ne rest) := by
  obtain ⟨h1, h2, h3⟩ := mergeBusy_spec l hsorted hproper
  refine ⟨h1, h2, h3, ?_, ?_⟩
  · intro cs ce ns ne rest h
    simp [mergeRun, h]
  · intro cs ce ns ne rest h
    simp [mergeRun, not_lt.mpr h]

/-- Witness for C3 (amended): two strictly overlapping intervals merge. -/
theorem C3_sweep_merges_strict_overlaps_witness :
    List.Pairwise (fun a b : TimeInterval => a.1 ≤ b.1) [((0:Int), 2), ((1:Int), 3)] ∧
    (∀ b ∈ [((0:Int), 2), ((1:Int), 3)], b.1 < b.2) ∧
    (List.Pairwise (fun a b : TimeInterval => a.2 ≤ b.1)
        (mergeBusy [((0:Int), 2), ((1:Int), 3)]) ∧
      (∀ o ∈ mergeBusy [((0:Int), 2), ((1:Int), 3)], o.1 < o.2) ∧
      (∀ t : Int, busyIn (mergeBusy [((0:Int), 2), ((1:Int), 3)]) t ↔
        busyIn [((0:Int), 2), ((1:Int), 3)] t) ∧
      (∀ cs ce ns ne : Int, ∀ rest : List TimeInterval, ns < ce →
        mergeRun cs ce ((ns, ne) :: rest) = mergeRun cs (max ce ne) rest) ∧
      (∀ cs ce ns ne : Int, ∀ rest : List TimeInterval, ce ≤ ns →
        mergeRun cs ce ((ns, ne) :: rest) = (cs, ce) :: mergeRun ns ne rest)) :=
  ⟨by decide, by decide,
    C3_sweep_merges_strict_overlaps [((0:Int), 2), ((1:Int), 3)] (by decide) (by decide)⟩

/-- Counterexample to C3 as stated: the adjacent intervals `[0,2)` and
`[2,4)` are not coalesced by the sweep, although their union is the single
interval `[0,4)` — the output is disjoint but not a minimal disjoint set. -/
theorem C3_counterexample :
    mergeBusy (sortBusy [((0:Int), 2), ((2:Int), 4)]) = [((0:Int), 2), ((2:Int), 4)] ∧
    (∀ t : Int, busyIn [((0:Int), 2), ((2:Int), 4)] t ↔ (0 ≤ t ∧ t < 4)) ∧
    mergeBusy (sortBusy [((0:Int), 2), ((2:Int), 4)]) ≠ [((0:Int), 4)] := by
  refine ⟨by decide, ?_, by decide⟩
  intro t
  simp [busyIn]
  omega

/-- C7 (amended): the busy union is sorted by start time only; the sort is
a permutation and stable, so intervals with equal starts keep their input
order (for each start value, filtering by that start is unchanged by the
sort) — ties are not broken by end time. -/
theorem C7_sort_by_start_stable (l : List TimeInterval) :
    List.Pairwise (fun a b : TimeInterval => a.1 ≤ b.1) (sortBusy l) ∧
    List.Perm (sortBusy l) l ∧
    ∀ s : Int, (sortBusy l).filter (fun q => q.1 = s) = l.filter (fun q => q.1 = s) := by
  have hperm : List.Perm (sortBusy l) l := List.perm_insertionSort _ l
  have hsorted : List.Pairwise (fun a b : TimeInterval => a.1 ≤ b.1) (sortBusy l) := by
    haveI : IsTotal TimeInterval (fun a b => a.1 ≤ b.1) := ⟨fun a b => le_total a.1 b.1⟩
    haveI : IsTrans TimeInterval (fun a b => a.1 ≤ b.1) := ⟨fun a b c => le_trans⟩
    exact List.sorted_insertionSort _ l
  refine ⟨hsorted, hperm, ?_⟩
  intro s
  have hall : ∀ q ∈ l.filter (fun q : TimeInterval => q.1 = s), q.1 = s := by
    intro q hq
    simpa using (List.mem_filter.mp hq).2
  have hpw : (l.filter (fun q : TimeInterval => q.1 = s)).Pairwise
      (fun a b : TimeInterval => a.1 ≤ b.1) := by
    refine List.pairwise_of_forall_mem_list ?_
    intro a ha b hb
    rw [hall a ha, hall b hb]
  have hsub : List.Sublist (l.filter (fun q : TimeInterval => q.1 = s)) (sortBusy l) :=
    List.sublist_insertionSort hpw (List.filter_sublist l)
  have hidem : (l.filter (fun q : TimeInterval => q.1 = s)).filter
      (fun q : TimeInterval => q.1 = s) = l.filter (fun q : TimeInterval => q.1 = s) :=
    List.filter_eq_self.mpr (fun a ha => (List.mem_filter.mp ha).2)
  have hsub2 : List.Sublist (l.filter (fun q : TimeInterval => q.1 = s))
      ((sortBusy l).filter (fun q : TimeInterval => q.1 = s)) := by
    have := hsub.filter (fun q : TimeInterval => q.1 = s)
    rwa [hidem] at this
  have hlen : (l.filter (fun q : TimeInterval => q.1 = s)).length =
      ((sortBusy l).filter (fun q : TimeInterval => q.1 = s)).length :=
    ((hperm.filter _).length_eq).symm
  exact (hsub2.eq_of_length hlen).symm

/-- Counterexample to C7 as stated: two intervals share start `0`; the
sorted sequence keeps input order `(0,5), (0,3)` instead of placing the
smaller end `(0,3)` first. -/
theorem C7_counterexample :
    sortBusy [((0:Int), 5), ((0:Int), 3)] = [((0:Int), 5), ((0:Int), 3)] ∧
    sortBusy [((0:Int), 5), ((0:Int), 3)] ≠ [((0:Int), 3), ((0:Int), 5)] :=
  ⟨by decide, by decide⟩

/-- C1: for a window `[ws, we)`, a positive minimum duration and the
merged-busy set produced by the sweep from proper in-window busy
intervals, the emitted free slots are in ascending start order and
pairwise disjoint, each at least `60 * d` seconds long, each inside the
window and disjoint from all busy time, and they are exactly the maximal
gaps of qualifying length: the slot list is the filter of the maximal-gap
walk, and the maximal gaps cover precisely the window minus the busy
time — so no maximal gap of qualifying length is omitted. -/
theorem C1_slots_are_maximal_qualifying_gaps (l : List TimeInterval) (ws we d : Int)
    (hd : 0 < d)
    (hl : ∀ b ∈ l, ws ≤ b.1 ∧ b.1 < b.2 ∧ b.2 ≤ we) :
    List.Pairwise (fun a b : TimeInterval => a.2 < b.1) (findSlotsCore ws we d l) ∧
    (∀ s ∈ findSlotsCore ws we d l, 60 * d ≤ s.2 - s.1) ∧
    (∀ s ∈ findSlotsCore ws we d l, ws ≤ s.1 ∧ s.1 < s.2 ∧ s.2 ≤ we ∧
      ∀ t : Int, s.1 ≤ t → t < s.2 → ¬ busyIn l t) ∧
    findSlotsCore ws we d l =
      (gapsFrom we ws (mergeBusy (sortBusy l))).filter (fun g => 60 * d ≤ g.2 - g.1) ∧
    (∀ t : Int, ws ≤ t → t < we →
      (¬ busyIn l t ↔ ∃ g ∈ gapsFrom we ws (mergeBusy (sortBusy l)), g.1 ≤ t ∧ t < g.2)) := by
  obtain ⟨hmp, hmm, hmc⟩ := merged_facts l ws we hl
  have hm1 : ∀ b ∈ mergeBusy (sortBusy l), b.1 < b.2 := fun b hb => (hmm b hb).2.1
  have hm2 : ∀ b ∈ mergeBusy (sortBusy l), ws ≤ b.1 := fun b hb => (hmm b hb).1
  have hm3 : ∀ b ∈ mergeBusy (sortBusy l), b.1 ≤ we := fun b hb => by
    have := hmm b hb
    omega
  have hfe : findSlotsCore ws we d l =
      (gapsFrom we ws (mergeBusy (sortBusy l))).filter (fun g => 60 * d ≤ g.2 - g.1) :=
    slotsFrom_eq_filter we d hd (mergeBusy (sortBusy l)) ws
  have hgap : ∀ s ∈ findSlotsCore ws we d l, s ∈ gapsFrom we ws (mergeBusy (sortBusy l)) := by
    intro s hs
    rw [hfe] at hs
    exact (List.mem_filter.mp hs).1
  refine ⟨?_, ?_, ?_, hfe, ?_⟩
  · rw [hfe]
    exact (gapsFrom_pairwise we _ ws hm1).sublist (List.filter_sublist _)
  · intro s hs
    rw [hfe] at hs
    have := (List.mem_filter.mp hs).2
    simpa using this
  · intro s hs
    have hsg := hgap s hs
    have hlow := gapsFrom_lower we _ ws s hsg
    have hup := gapsFrom_upper we _ ws hm3 s hsg
    refine ⟨hlow.1, hlow.2, hup, ?_⟩
    intro t ht1 ht2 hbt
    have hcov := gapsFrom_cover we _ ws hm1 hmp hm2 t (le_trans hlow.1 ht1)
      (lt_of_lt_of_le ht2 hup)
    exact (hcov.mpr ⟨s, hsg, ht1, ht2⟩) ((hmc t).mpr hbt)
  · intro t h1 h2
    have hcov := gapsFrom_cover we _ ws hm1 hmp hm2 t h1 h2
    rw [← hcov]
    exact (not_congr (hmc t)).symm

/-- Witness for C1: one busy interval `[100, 200)` in window `[0, 300)`
with a one-minute minimum duration. -/
theorem C1_slots_are_maximal_qualifying_gaps_witness :
    (0:Int) < 1 ∧
    (∀ b ∈ [((100:Int), 200)], (0:Int) ≤ b.1 ∧ b.1 < b.2 ∧ b.2 ≤ 300) ∧
    (List.Pairwise (fun a b : TimeInterval => a.2 < b.1)
        (findSlotsCore 0 300 1 [((100:Int), 200)]) ∧
      (∀ s ∈ findSlotsCore 0 300 1 [((100:Int), 200)], 60 * 1 ≤ s.2 - s.1) ∧
      (∀ s ∈ findSlotsCore 0 300 1 [((100:Int), 200)], (0:Int) ≤ s.1 ∧ s.1 < s.2 ∧ s.2 ≤ 300 ∧
        ∀ t : Int, s.1 ≤ t → t < s.2 → ¬ busyIn [((100:Int), 200)] t) ∧
      findSlotsCore 0 300 1 [((100:Int), 200)] =
        (gapsFrom 300 0 (mergeBusy (sortBusy [((100:Int), 200)]))).filter
          (fun g => 60 * 1 ≤ g.2 - g.1) ∧
      (∀ t : Int, (0:Int) ≤ t → t < 300 →
        (¬ busyIn [((100:Int), 200)] t ↔
          ∃ g ∈ gapsFrom 300 0 (mergeBusy (sortBusy [((100:Int), 200)])), g.1 ≤ t ∧ t < g.2))) :=
  ⟨by decide, by decide,
    C1_slots_are_maximal_qualifying_gaps [((100:Int), 200)] 0 300 1 (by decide) (by decide)⟩

/-- C8: a maximal gap of the walk whose length is exactly `minDuration`
minutes is emitted as a free slot, and is excluded once the requested
duration is one minute larger. -/
theorem C8_boundary_duration (l : List TimeInterval) (ws we d : Int) (g : TimeInterval)
    (hd : 0 < d)
    (hg : g ∈ gapsFrom we ws (mergeBusy (sortBusy l)))
    (hlen : g.2 - g.1 = 60 * d) :
    g ∈ findSlotsCore ws we d l ∧ g ∉ findSlotsCore ws we (d + 1) l := by
  have h1 := slotsFrom_eq_filter we d hd (mergeBusy (sortBusy l)) ws
  have h2 := slotsFrom_eq_filter we (d + 1) (by omega) (mergeBusy (sortBusy l)) ws
  constructor
  · show g ∈ slotsFrom we d ws (mergeBusy (sortBusy l))
    rw [h1]
    refine List.mem_filter.mpr ⟨hg, ?_⟩
    simp
    omega
  · show g ∉ slotsFrom we (d + 1) ws (mergeBusy (sortBusy l))
    rw [h2]
    intro hmem
    have := (List.mem_filter.mp hmem).2
    simp at this
    omega

/-- Witness for C8: the whole window `[0, 60)` is a single 1-minute gap:
emitted at `d = 1`, excluded at `d = 2`. -/
theorem C8_boundary_duration_witness :
    (0:Int) < 1 ∧
    ((0:Int), (60:Int)) ∈ gapsFrom 60 0 (mergeBusy (sortBusy [])) ∧
    (((0:Int), (60:Int)).2 - ((0:Int), (60:Int)).1 = 60 * 1) ∧
    (((0:Int), (60:Int)) ∈ findSlotsCore 0 60 1 [] ∧
      ((0:Int), (60:Int)) ∉ findSlotsCore 0 60 (1 + 1) []) :=
  ⟨by decide, by decide, by decide,
    C8_boundary_duration [] 0 60 1 ((0:Int), (60:Int)) (by decide) (by decide) (by decide)⟩

/-- C10: the search window runs from second `0` of the start date to
second `86399` (23:59:59) of the end date; every returned slot lies inside
`[windowStart, windowEnd)` and no instant of any returned slot reaches
`86400 * endDay + 86399`, so the final second of the end date is never
part of a returned free slot. -/
theorem C10_window_construction (startDay endDay d : Int)
    (cals : List (String × CalendarData))
    (hbusy : ∀ b ∈ collectBusy cals,
      windowStart startDay ≤ b.1 ∧ b.1 < b.2 ∧ b.2 ≤ windowEnd endDay) :
    windowStart startDay = 86400 * startDay ∧
    windowEnd endDay = 86400 * endDay + 86399 ∧
    ∀ s ∈ (find_available_slots startDay endDay d (.ok cals)).slots,
      windowStart startDay ≤ s.1 ∧ s.1 < s.2 ∧ s.2 ≤ windowEnd endDay ∧
      ∀ t : Int, s.1 ≤ t → t < s.2 → t < 86400 * endDay + 86399 := by
  refine ⟨rfl, rfl, ?_⟩
  obtain ⟨hmp, hmm, hmc⟩ := merged_facts (collectBusy cals) _ _ hbusy
  have hm3 : ∀ b ∈ mergeBusy (sortBusy (collectBusy cals)), b.1 ≤ windowEnd endDay :=
    fun b hb => by
      have := hmm b hb
      omega
  have hcore : ∀ s ∈ findSlotsCore (windowStart startDay) (windowEnd endDay) d
      (collectBusy cals),
      windowStart startDay ≤ s.1 ∧ s.1 < s.2 ∧ s.2 ≤ windowEnd endDay :=
    fun s hs => slotsFrom_bounds (windowEnd endDay) d _ (windowStart startDay) hm3 s hs
  intro s hs
  by_cases hne : findSlotsCore (windowStart startDay) (windowEnd endDay) d
      (collectBusy cals) ≠ []
  · have hout : (find_available_slots startDay endDay d (.ok cals)).slots =
        findSlotsCore (windowStart startDay) (windowEnd endDay) d (collectBusy cals) := by
      simp [find_available_slots, hne]
    rw [hout] at hs
    have hb := hcore s hs
    have hwe : windowEnd endDay = 86400 * endDay + 86399 := rfl
    refine ⟨hb.1, hb.2.1, hb.2.2, ?_⟩
    intro t ht1 ht2
    have := hb.2.2
    omega
  · rw [not_ne_iff] at hne
    have hout : (find_available_slots startDay endDay d (.ok cals)).slots = [] := by
      simp [find_available_slots, hne]
    rw [hout] at hs
    cases hs

/-- Witness for C10: one clean calendar, busy `[3600, 7200)`, same-day
window. -/
theorem C10_window_construction_witness :
    (∀ b ∈ collectBusy [("alice", ⟨[], [((3600:Int), 7200)]⟩)],
      windowStart 0 ≤ b.1 ∧ b.1 < b.2 ∧ b.2 ≤ windowEnd 0) ∧
    (windowStart 0 = 86400 * 0 ∧
      windowEnd 0 = 86400 * 0 + 86399 ∧
      ∀ s ∈ (find_available_slots 0 0 30
          (.ok [("alice", ⟨[], [((3600:Int), 7200)]⟩)])).slots,
        windowStart 0 ≤ s.1 ∧ s.1 < s.2 ∧ s.2 ≤ windowEnd 0 ∧
        ∀ t : Int, s.1 ≤ t → t < s.2 → t < 86400 * 0 + 86399) :=
  ⟨by decide, C10_window_construction 0 0 30 [("alice", ⟨[], [((3600:Int), 7200)]⟩)] (by decide)⟩
